import Mathlib

/-!
Verification of the SSE streaming client of the parlez code challenge.

The development shallowly embeds two pieces of the frontend:

* the stream decoder loop of `sendMessage` in
  `frontend/src/services/api.js`, which reads the HTTP response body
  incrementally, reassembles `data: <json>` events separated by blank
  lines, and drives the `onChunk` / `onComplete` callbacks; and
* the conversation view handlers of `ChatInterface.jsx`
  (`handleSendMessage`, `handleClearConversation`) and
  `MessageInput.jsx` (`handleSubmit`).

JavaScript strings are modelled as Lean `String`; the string
operations used by the code (`split`, `startsWith`, `slice`, `trim`)
are given structurally recursive models over `List Char` so that
concrete runs reduce inside the kernel.  `JSON.parse` is an external
platform primitive, so the decoder is parametrised by a partial parse
function `String → Option SSEData`; `none` models a thrown
`SyntaxError`.  Callback invocations are recorded in an explicit
trace, and exceptions are modelled by the result constructors.
-/

namespace Chat

/-- Role tag of a chat message, per the data model of the frontend. -/
inductive Role
  | user
  | assistant
  | system
deriving DecidableEq

/-- Result of `JSON.parse` on the payload of one SSE segment, restricted to
the four fields the decoder inspects (`error`, `chunk`, `done`,
`full_response`).  A missing field is `none`; JavaScript truthiness of a
present field is computed by `truthyStr` / `truthyBool`. -/
structure SSEData where
  chunk : Option String
  error : Option String
  done : Option Bool
  full_response : Option String
deriving DecidableEq

/-- JavaScript truthiness of an optional string field: present and non-empty. -/
def truthyStr : Option String → Bool
  | none => false
  | some s => !(s == "")

/-- JavaScript truthiness of an optional boolean field. -/
def truthyBool : Option Bool → Bool
  | none => false
  | some b => b

/-- One recorded callback invocation made by the decoder. -/
inductive CallbackEvent
  | chunk (text : String)
  | complete (text : String)
deriving DecidableEq

/-- Whether a trace entry is an `onComplete` invocation. -/
def CallbackEvent.isComplete : CallbackEvent → Bool
  | .complete _ => true
  | .chunk _ => false

/-- Whether a trace entry is an `onChunk` invocation. -/
def CallbackEvent.isChunk : CallbackEvent → Bool
  | .complete _ => false
  | .chunk _ => true

/-- Number of `onComplete` invocations in a trace. -/
def countC (tr : List CallbackEvent) : Nat :=
  (tr.filter CallbackEvent.isComplete).length

/-- Mutable locals of the read loop of `sendMessage`: `buffer`,
`accumulatedResponse` and the `completed` flag. -/
structure DecoderState where
  buffer : String
  accumulated : String
  completed : Bool
deriving DecidableEq

/-- Outcome of processing one SSE segment (or a run of segments): continue
the loop, return from `sendMessage` (the `done` path), or propagate a
thrown error carrying its message. -/
inductive LineResult
  | cont (st : DecoderState) (trace : List CallbackEvent)
  | ret (st : DecoderState) (trace : List CallbackEvent)
  | err (msg : String) (st : DecoderState) (trace : List CallbackEvent)
deriving DecidableEq

/-- State component of a `LineResult`. -/
def LineResult.state : LineResult → DecoderState
  | .cont st _ => st
  | .ret st _ => st
  | .err _ st _ => st

/-- Trace component of a `LineResult`. -/
def LineResult.trace : LineResult → List CallbackEvent
  | .cont _ tr => tr
  | .ret _ tr => tr
  | .err _ _ tr => tr

/-- The guarded completion idiom
`if (!completed) { completed = true; onComplete(accumulatedResponse || empty) }`
used on every exit path of `sendMessage`. -/
def completeOnce (st : DecoderState) (tr : List CallbackEvent) :
    DecoderState × List CallbackEvent :=
  if st.completed then (st, tr)
  else ({ st with completed := true }, tr ++ [.complete st.accumulated])

/-- Payload passed to `onComplete` on the `done` path:
`data.full_response` if truthy, else the accumulated text. -/
def donePayload (d : SSEData) (acc : String) : String :=
  if truthyStr d.full_response then d.full_response.getD "" else acc

/-- Dispatch of one parsed SSE event, mirroring the body of the inner
`try` of `sendMessage`: a truthy `error` field completes (once) and
throws; otherwise a truthy `chunk` field is appended to the accumulator
and dispatched to `onChunk`; then a truthy `done` field completes (once)
and returns. -/
def processEvent (d : SSEData) (st : DecoderState) (tr : List CallbackEvent) :
    LineResult :=
  if truthyStr d.error then
    let p := completeOnce st tr
    .err (d.error.getD "") p.1 p.2
  else
    let st1 := if truthyStr d.chunk then
      { st with accumulated := st.accumulated ++ d.chunk.getD "" } else st
    let tr1 := if truthyStr d.chunk then tr ++ [.chunk (d.chunk.getD "")] else tr
    if truthyBool d.done then
      if st1.completed then .ret st1 tr1
      else .ret { st1 with completed := true }
        (tr1 ++ [.complete (donePayload d st1.accumulated)])
    else .cont st1 tr1

/-- Model of `line.startsWith('data: ')`, structurally recursive. -/
def startsWithData (line : String) : Bool :=
  "data: ".data.isPrefixOf line.data

/-- Model of `line.slice(6)`, dropping the `data: ` marker. -/
def sliceFrom6 (line : String) : String :=
  String.mk (line.data.drop 6)

/-- Processing of one complete segment of the buffer: segments without the
`data: ` marker are ignored, a JSON parse failure (`parse` returns `none`)
is logged and skipped, and a parsed event is dispatched by
`processEvent`. -/
def processLine (parse : String → Option SSEData) (st : DecoderState)
    (tr : List CallbackEvent) (line : String) : LineResult :=
  if startsWithData line then
    match parse (sliceFrom6 line) with
    | none => .cont st tr
    | some d => processEvent d st tr
  else .cont st tr

/-- The `for (const line of lines)` loop: process segments in order,
stopping at the first `return` or thrown error. -/
def processLines (parse : String → Option SSEData) :
    DecoderState → List CallbackEvent → List String → LineResult
  | st, tr, [] => .cont st tr
  | st, tr, l :: ls =>
    match processLine parse st tr l with
    | .cont st1 tr1 => processLines parse st1 tr1 ls
    | .ret st1 tr1 => .ret st1 tr1
    | .err m st1 tr1 => .err m st1 tr1

/-- Model of the JavaScript `split('\n\n')` used on the buffer: scan left
to right, cutting at each (non-overlapping) blank-line delimiter.  The
first argument accumulates the current segment in reverse. -/
def splitBlankAux : List Char → List Char → List (List Char)
  | cur, [] => [cur.reverse]
  | cur, '\n' :: '\n' :: rest => cur.reverse :: splitBlankAux [] rest
  | cur, c :: rest => splitBlankAux (c :: cur) rest

/-- Split a string on the blank-line delimiter, as `buffer.split('\n\n')`. -/
def splitBlank (s : String) : List String :=
  (splitBlankAux [] s.data).map String.mk

/-- Processing of one read of the response body: append the decoded text
to the buffer, split on the blank-line delimiter, retain the final
(possibly incomplete) segment as the new buffer
(`buffer = lines.pop() || empty`), and process the complete segments. -/
def processRead (parse : String → Option SSEData) (st : DecoderState)
    (tr : List CallbackEvent) (readText : String) : LineResult :=
  let parts := splitBlank (st.buffer ++ readText)
  processLines parse { st with buffer := parts.getLastD "" } tr parts.dropLast

/-- How the underlying byte stream terminates after its reads: a clean
end of stream (`reader.read()` resolves with `done`), or a transport
failure (`reader.read()` rejects with the given message). -/
inductive StreamEnd
  | eof
  | fail (msg : String)
deriving DecidableEq

/-- How one whole run of the decoder exits `sendMessage`: falling out of
the read loop at end of stream, the `return` of the `done` path, or an
exception propagating to the caller. -/
inductive DecodeOutcome
  | normal
  | returned
  | errored (msg : String)
deriving DecidableEq

/-- The `while (true)` read loop of `sendMessage` over a prescribed list
of reads.  End of stream runs the guarded completion and breaks; a
transport failure is caught by the outer `catch (streamError)`, which
runs the guarded completion and rethrows. -/
def runReads (parse : String → Option SSEData) (ending : StreamEnd) :
    List String → DecoderState → List CallbackEvent →
    DecodeOutcome × DecoderState × List CallbackEvent
  | [], st, tr =>
    match ending with
    | .eof =>
      let p := completeOnce st tr
      (.normal, p.1, p.2)
    | .fail m =>
      let p := completeOnce st tr
      (.errored m, p.1, p.2)
  | r :: rs, st, tr =>
    match processRead parse st tr r with
    | .cont st1 tr1 => runReads parse ending rs st1 tr1
    | .ret st1 tr1 => (.returned, st1, tr1)
    | .err m st1 tr1 => (.errored m, st1, tr1)

/-- One whole decoder run of `sendMessage` from the initial state
(empty buffer, empty accumulator, not completed, no callbacks yet). -/
def decodeStream (parse : String → Option SSEData) (reads : List String)
    (ending : StreamEnd) : DecodeOutcome × DecoderState × List CallbackEvent :=
  runReads parse ending reads ⟨"", "", false⟩ []

/-! The conversation view of `ChatInterface.jsx` and the input guard of
`MessageInput.jsx`. -/

/-- A displayed message of the conversation view.  The JavaScript objects
carry a `timestamp` that no handler ever reads, so it is omitted here;
the user message carries no `isStreaming` property, which is modelled as
`false` (the undefined field is falsy wherever it is read). -/
structure Message where
  id : Nat
  role : Role
  content : String
  isStreaming : Bool
deriving DecidableEq

/-- Component state of `ChatInterface`: the `messages`, `isLoading` and
`error` `useState` hooks. -/
structure ChatState where
  messages : List Message
  isLoading : Bool
  error : Option String
deriving DecidableEq

/-- Environment behaviour of one `fetch` of `POST /api/chat`: the fetch
itself rejects, the response is not ok and carries an error `detail`, or
the response is ok and its body yields the given reads before ending. -/
inductive FetchResult
  | netFail (msg : String)
  | httpError (detail : String)
  | ok (reads : List String) (ending : StreamEnd)

/-- The JavaScript idiom `s || fallback` on strings: the fallback is used
when the string is empty (or the field absent). -/
def orDefault (s fallback : String) : String :=
  if s == "" then fallback else s

/-- One call of `sendMessage` from the view, returning the callback trace
and, when the call throws, the message of the thrown error.  A non-ok
response throws `detail || failure text` before any read; a decoder run
ending in `errored` rethrows its message after the trace. -/
def sendMessageRun (parse : String → Option SSEData) :
    FetchResult → List CallbackEvent × Option String
  | .netFail m => ([], some m)
  | .httpError detail => ([], some (orDefault detail "Failed to send message"))
  | .ok reads ending =>
    let res := decodeStream parse reads ending
    match res.1 with
    | .errored m => (res.2.2, some m)
    | _ => (res.2.2, none)

/-- Effect on the message list of one callback invocation of the running
turn, whose assistant placeholder has id `aid`: a chunk extends the
content of the placeholder (keeping it streaming), completion replaces
the content with the full response and clears the streaming flag. -/
def applyCallback (aid : Nat) (msgs : List Message) :
    CallbackEvent → List Message
  | .chunk c => msgs.map fun m =>
      if m.id == aid then { m with content := m.content ++ c, isStreaming := true }
      else m
  | .complete full => msgs.map fun m =>
      if m.id == aid then { m with content := full, isStreaming := false }
      else m

/-- Model of `s.trim()`: strip leading and trailing whitespace. -/
def jsTrim (s : String) : String :=
  let ws : Char → Bool := fun c => c == ' ' || c == '\n' || c == '\t' || c == '\r'
  String.mk (((s.data.dropWhile ws).reverse.dropWhile ws).reverse)

/-- The optimistic user message appended at the start of a turn
(`id = Date.now()`, modelled by the clock value `now`). -/
def mkUserMessage (now : Nat) (text : String) : Message :=
  { id := now, role := .user, content := jsTrim text, isStreaming := false }

/-- The assistant placeholder appended at the start of a turn
(`id = Date.now() + 1`). -/
def mkAssistantMessage (now : Nat) : Message :=
  { id := now + 1, role := .assistant, content := "", isStreaming := true }

/-- The `handleSendMessage` handler of `ChatInterface`.  The boolean of
the result records whether the guard passed and a request was issued.
The guard rejects an empty (after trim) text and an in-flight turn;
otherwise the user message and assistant placeholder are appended, the
callbacks of `sendMessage` update the placeholder, and the `catch`
branch removes the placeholder and surfaces the error while the
`finally` branch clears `isLoading`. -/
def handleSendMessage (parse : String → Option SSEData) (st : ChatState)
    (text : String) (now : Nat) (fetch : FetchResult) : ChatState × Bool :=
  if jsTrim text == "" || st.isLoading then (st, false)
  else
    match sendMessageRun parse fetch with
    | (tr, thrown) =>
      let aid := now + 1
      let msgs3 := tr.foldl (applyCallback aid)
        (st.messages ++ [mkUserMessage now text] ++ [mkAssistantMessage now])
      match thrown with
      | none => ({ messages := msgs3, isLoading := false, error := none }, true)
      | some m =>
        ({ messages := msgs3.filter fun msg => msg.id != aid,
           isLoading := false,
           error := some (orDefault m "Failed to send message") }, true)

/-- The `handleSubmit` guard of `MessageInput`: the text is handed to
`onSendMessage` only when it is non-blank and no turn is in flight. -/
def handleSubmit (input : String) (isLoading : Bool) : Option String :=
  if jsTrim input != "" && !isLoading then some input else none

/-- The successive values taken by the message list during one turn:
before the turn, after the optimistic user message, after the assistant
placeholder, after each callback, and after the final `catch` / success
update.  A turn rejected by the guard leaves the list untouched. -/
def turnStates (parse : String → Option SSEData) (st : ChatState)
    (text : String) (now : Nat) (fetch : FetchResult) : List (List Message) :=
  if jsTrim text == "" || st.isLoading then [st.messages]
  else
    [st.messages, st.messages ++ [mkUserMessage now text]]
      ++ List.scanl (applyCallback (now + 1))
        (st.messages ++ [mkUserMessage now text] ++ [mkAssistantMessage now])
        (sendMessageRun parse fetch).1
      ++ [(handleSendMessage parse st text now fetch).1.messages]

/-- The component states reachable by the conversation view between
turns: from the initial state by whole turns of `handleSendMessage`
(under a clock that never reuses the two ids of a live turn, as
`Date.now()` at distinct turns) and by `handleClearConversation`, whose
success empties the list and clears the error and whose failure
surfaces the error. -/
inductive Reachable : ChatState → Prop
  | init : Reachable ⟨[], false, none⟩
  | send (parse : String → Option SSEData) (st : ChatState) (text : String)
      (now : Nat) (fetch : FetchResult) : Reachable st →
      (∀ m ∈ st.messages, m.id ≠ now ∧ m.id ≠ now + 1) →
      Reachable (handleSendMessage parse st text now fetch).1
  | clearOk (st : ChatState) : Reachable st → Reachable ⟨[], st.isLoading, none⟩
  | clearFail (st : ChatState) (m : String) : Reachable st →
      Reachable ⟨st.messages, st.isLoading,
        some (orDefault m "Failed to clear conversation")⟩

/-! Trace-shape lemmas for the decoder: starting from a state whose
`completed` flag is `c`, a step of the loop extends the trace without
completions while it continues, and every exit extends it with exactly
one completion when `c` is false and none when `c` is true, the
completion being the last entry. -/

/-- Exit shape of the trace: from flag `c`, the final trace extends the
initial one by completion-free events when `c` is already set, and by
completion-free events followed by exactly one completion otherwise. -/
def exitTrace (c : Bool) (tr tr1 : List CallbackEvent) : Prop :=
  if c then ∃ ex, tr1 = tr ++ ex ∧ countC ex = 0
  else ∃ pre x, tr1 = tr ++ pre ++ [.complete x] ∧ countC pre = 0

/-- Step shape: a continuing step preserves the flag and adds no
completion; a `return` or thrown step sets the flag and has exit shape. -/
def goodStep (c : Bool) (tr : List CallbackEvent) : LineResult → Prop
  | .cont st1 tr1 => st1.completed = c ∧ ∃ ex, tr1 = tr ++ ex ∧ countC ex = 0
  | .ret st1 tr1 => st1.completed = true ∧ exitTrace c tr tr1
  | .err _ st1 tr1 => st1.completed = true ∧ exitTrace c tr tr1

theorem countC_nil : countC [] = 0 := rfl

theorem countC_append (a b : List CallbackEvent) :
    countC (a ++ b) = countC a + countC b := by
  simp [countC, List.filter_append]

theorem countC_chunk (c : String) : countC [.chunk c] = 0 := rfl

theorem countC_complete (x : String) : countC [.complete x] = 1 := rfl

theorem completeOnce_of_true {st : DecoderState} {tr : List CallbackEvent}
    (hc : st.completed = true) : completeOnce st tr = (st, tr) := by
  unfold completeOnce
  rw [hc]
  simp

theorem completeOnce_of_false {st : DecoderState} {tr : List CallbackEvent}
    (hc : st.completed = false) : completeOnce st tr =
      ({ st with completed := true }, tr ++ [.complete st.accumulated]) := by
  unfold completeOnce
  rw [hc]
  simp

theorem exitTrace_intro_true (tr ex : List CallbackEvent)
    (h : countC ex = 0) : exitTrace true tr (tr ++ ex) := by
  unfold exitTrace
  simp only [if_pos rfl]
  exact ⟨ex, rfl, h⟩

theorem exitTrace_intro_false (tr pre : List CallbackEvent) (x : String)
    (h : countC pre = 0) :
    exitTrace false tr (tr ++ pre ++ [.complete x]) := by
  unfold exitTrace
  simp only [Bool.false_eq_true, if_false]
  exact ⟨pre, x, rfl, h⟩

/-- Exit shapes absorb a completion-free extension on the left. -/
theorem exitTrace_mono {c : Bool} {tr tr2 : List CallbackEvent}
    (ex : List CallbackEvent) (h0 : countC ex = 0)
    (h : exitTrace c (tr ++ ex) tr2) : exitTrace c tr tr2 := by
  unfold exitTrace at h ⊢
  cases c with
  | true =>
    simp only [if_pos rfl] at h ⊢
    obtain ⟨ex2, hex2, hcnt2⟩ := h
    exact ⟨ex ++ ex2, by simp [hex2], by simp [countC_append, h0, hcnt2]⟩
  | false =>
    simp only [Bool.false_eq_true, if_false] at h ⊢
    obtain ⟨pre, x, hpre, hcnt2⟩ := h
    exact ⟨ex ++ pre, x, by simp [hpre], by simp [countC_append, h0, hcnt2]⟩

/-- The guarded completion sets the flag and has exit shape. -/
theorem completeOnce_good (st : DecoderState) (tr : List CallbackEvent) :
    (completeOnce st tr).1.completed = true ∧
    exitTrace st.completed tr (completeOnce st tr).2 := by
  cases hc : st.completed with
  | true =>
    rw [completeOnce_of_true hc]
    refine ⟨hc, ?_⟩
    simpa using exitTrace_intro_true tr [] countC_nil
  | false =>
    rw [completeOnce_of_false hc]
    refine ⟨rfl, ?_⟩
    simpa using exitTrace_intro_false tr [] st.accumulated countC_nil

/-- Dispatch of one event has the step shape. -/
theorem processEvent_good (d : SSEData) (st : DecoderState)
    (tr : List CallbackEvent) :
    goodStep st.completed tr (processEvent d st tr) := by
  unfold processEvent
  by_cases he : truthyStr d.error = true
  · simp only [he, if_true]
    unfold completeOnce goodStep
    cases hc : st.completed with
    | true =>
      simp only [hc, if_true]
      exact ⟨trivial, by simpa using exitTrace_intro_true tr [] countC_nil⟩
    | false =>
      simp only [hc, Bool.false_eq_true, if_false]
      exact ⟨trivial,
        by simpa using exitTrace_intro_false tr [] st.accumulated countC_nil⟩
  · simp only [he, Bool.false_eq_true, if_false]
    unfold goodStep
    by_cases hch : truthyStr d.chunk = true
    · simp only [hch, if_true]
      by_cases hd : truthyBool d.done = true
      · simp only [hd, if_true]
        cases hc : st.completed with
        | true =>
          simp only [hc, if_true]
          exact ⟨trivial,
            exitTrace_intro_true tr [.chunk (d.chunk.getD "")] (countC_chunk _)⟩
        | false =>
          simp only [hc, Bool.false_eq_true, if_false]
          exact ⟨trivial, exitTrace_intro_false tr [.chunk (d.chunk.getD "")]
            (donePayload d (st.accumulated ++ d.chunk.getD "")) (countC_chunk _)⟩
      · simp only [hd, Bool.false_eq_true, if_false]
        exact ⟨trivial, [.chunk (d.chunk.getD "")], rfl, countC_chunk _⟩
    · simp only [hch, Bool.false_eq_true, if_false]
      by_cases hd : truthyBool d.done = true
      · simp only [hd, if_true]
        cases hc : st.completed with
        | true =>
          simp only [hc, if_true]
          exact ⟨trivial, by simpa using exitTrace_intro_true tr [] countC_nil⟩
        | false =>
          simp only [hc, Bool.false_eq_true, if_false]
          exact ⟨trivial,
            (by simpa using exitTrace_intro_false tr [] (donePayload d st.accumulated) countC_nil)⟩
      · simp only [hd, Bool.false_eq_true, if_false]
        exact ⟨trivial, [], by simp, countC_nil⟩

/-- Processing one segment has the step shape. -/
theorem processLine_good (parse : String → Option SSEData)
    (st : DecoderState) (tr : List CallbackEvent) (line : String) :
    goodStep st.completed tr (processLine parse st tr line) := by
  unfold processLine
  by_cases h : startsWithData line = true
  · rw [if_pos h]
    cases parse (sliceFrom6 line) with
    | none => exact ⟨rfl, [], by simp, countC_nil⟩
    | some d => exact processEvent_good d st tr
  · rw [if_neg h]
    exact ⟨rfl, [], by simp, countC_nil⟩

/-- Step shapes compose across a continuing step. -/
theorem goodStep_trans {c : Bool} {tr tr1 : List CallbackEvent}
    {st1 : DecoderState} {r : LineResult}
    (hflag : st1.completed = c) (ex : List CallbackEvent)
    (hex : tr1 = tr ++ ex) (hcnt : countC ex = 0)
    (h2 : goodStep st1.completed tr1 r) : goodStep c tr r := by
  subst hex
  rw [hflag] at h2
  cases r with
  | cont st2 tr2 =>
    obtain ⟨hf2, ex2, hex2, hcnt2⟩ := h2
    exact ⟨hf2, ex ++ ex2, by simp [hex2],
      by simp [countC_append, hcnt, hcnt2]⟩
  | ret st2 tr2 => exact ⟨h2.1, exitTrace_mono ex hcnt h2.2⟩
  | err m st2 tr2 => exact ⟨h2.1, exitTrace_mono ex hcnt h2.2⟩

/-- Processing a run of segments has the step shape. -/
theorem processLines_good (parse : String → Option SSEData) :
    ∀ (lines : List String) (st : DecoderState) (tr : List CallbackEvent),
    goodStep st.completed tr (processLines parse st tr lines) := by
  intro lines
  induction lines with
  | nil =>
    intro st tr
    exact ⟨rfl, [], by simp, countC_nil⟩
  | cons l ls ih =>
    intro st tr
    have h := processLine_good parse st tr l
    unfold processLines
    cases hr : processLine parse st tr l with
    | cont st1 tr1 =>
      rw [hr] at h
      obtain ⟨hflag, ex, hex, hcnt⟩ := h
      exact goodStep_trans hflag ex hex hcnt (ih st1 tr1)
    | ret st1 tr1 => rw [hr] at h; exact h
    | err m st1 tr1 => rw [hr] at h; exact h

/-- Processing one read has the step shape. -/
theorem processRead_good (parse : String → Option SSEData)
    (st : DecoderState) (tr : List CallbackEvent) (r : String) :
    goodStep st.completed tr (processRead parse st tr r) := by
  unfold processRead
  exact processLines_good parse (splitBlank (st.buffer ++ r)).dropLast
    { st with buffer := (splitBlank (st.buffer ++ r)).getLastD "" } tr

/-- A whole run of the read loop always ends with the `completed` flag
set, and its trace has exit shape from the initial flag. -/
theorem runReads_good (parse : String → Option SSEData) (ending : StreamEnd) :
    ∀ (reads : List String) (st : DecoderState) (tr : List CallbackEvent),
    (runReads parse ending reads st tr).2.1.completed = true ∧
    exitTrace st.completed tr (runReads parse ending reads st tr).2.2 := by
  intro reads
  induction reads with
  | nil =>
    intro st tr
    cases ending with
    | eof => exact completeOnce_good st tr
    | fail m => exact completeOnce_good st tr
  | cons r rs ih =>
    intro st tr
    have h := processRead_good parse st tr r
    unfold runReads
    cases hr : processRead parse st tr r with
    | cont st1 tr1 =>
      rw [hr] at h
      obtain ⟨hflag, ex, hex, hcnt⟩ := h
      subst hex
      refine ⟨(ih st1 (tr ++ ex)).1, ?_⟩
      have het := (ih st1 (tr ++ ex)).2
      rw [hflag] at het
      exact exitTrace_mono ex hcnt het
    | ret st1 tr1 => rw [hr] at h; exact h
    | err m st1 tr1 => rw [hr] at h; exact h

/-- The trace of one whole decoder run is completion-free events
followed by exactly one completion. -/
theorem decodeStream_trace (parse : String → Option SSEData)
    (reads : List String) (ending : StreamEnd) :
    ∃ pre x, (decodeStream parse reads ending).2.2 = pre ++ [.complete x] ∧
      countC pre = 0 := by
  have h := (runReads_good parse ending reads ⟨"", "", false⟩ []).2
  unfold exitTrace at h
  simp only [Bool.false_eq_true, if_false] at h
  obtain ⟨pre, x, hpre, hcnt⟩ := h
  exact ⟨pre, x, by simpa using hpre, hcnt⟩

/-! Buffer lemmas: segment processing never touches the buffer, so after
any read the buffer is exactly the final segment of the split, whichever
way the segment loop exits. -/

theorem processEvent_buffer (d : SSEData) (st : DecoderState)
    (tr : List CallbackEvent) :
    (processEvent d st tr).state.buffer = st.buffer := by
  unfold processEvent completeOnce LineResult.state
  by_cases he : truthyStr d.error = true <;>
    by_cases hch : truthyStr d.chunk = true <;>
      by_cases hd : truthyBool d.done = true <;>
        by_cases hc : st.completed = true <;>
          simp [he, hch, hd, hc]

theorem processLine_buffer (parse : String → Option SSEData)
    (st : DecoderState) (tr : List CallbackEvent) (line : String) :
    (processLine parse st tr line).state.buffer = st.buffer := by
  unfold processLine
  by_cases h : startsWithData line = true
  · rw [if_pos h]
    cases parse (sliceFrom6 line) with
    | none => rfl
    | some d => exact processEvent_buffer d st tr
  · rw [if_neg h]
    rfl

theorem processLines_buffer (parse : String → Option SSEData) :
    ∀ (lines : List String) (st : DecoderState) (tr : List CallbackEvent),
    (processLines parse st tr lines).state.buffer = st.buffer := by
  intro lines
  induction lines with
  | nil => intro st tr; rfl
  | cons l ls ih =>
    intro st tr
    have h := processLine_buffer parse st tr l
    unfold processLines
    cases hr : processLine parse st tr l with
    | cont st1 tr1 =>
      rw [hr] at h
      rw [ih st1 tr1]
      exact h
    | ret st1 tr1 => rw [hr] at h; exact h
    | err m st1 tr1 => rw [hr] at h; exact h

/-- After processing one read, whichever way the segment loop exits, the
buffer holds the final (possibly incomplete) segment of the split of the
old buffer extended by the read. -/
theorem processRead_buffer (parse : String → Option SSEData)
    (st : DecoderState) (tr : List CallbackEvent) (r : String) :
    (processRead parse st tr r).state.buffer
      = (splitBlank (st.buffer ++ r)).getLastD "" := by
  unfold processRead
  exact processLines_buffer parse (splitBlank (st.buffer ++ r)).dropLast
    { st with buffer := (splitBlank (st.buffer ++ r)).getLastD "" } tr

/-- Model of `JSON.parse` restricted to the payload of the split-event
reassembly example. -/
def parseChunkHi : String → Option SSEData := fun s =>
  if s = "\x7b\"chunk\":\"hi\"\x7d" then some ⟨some "hi", none, none, none⟩
  else none

/-- C1: across every behaviour of the response stream, every exit path of
the decoder, a clean `done` event, an `error` event, a transport failure
of a read, or the byte stream ending without any terminal event, invokes
the completion callback exactly once. -/
theorem sse_completion_fires_once (parse : String → Option SSEData)
    (reads : List String) (ending : StreamEnd) :
    countC (decodeStream parse reads ending).2.2 = 1 := by
  obtain ⟨pre, x, hpre, hcnt⟩ := decodeStream_trace parse reads ending
  rw [hpre, countC_append, hcnt, countC_complete]

/-- C2: the decoder keeps a rolling buffer: after each read the buffer is
the final segment of splitting the old buffer plus the read on the
blank-line delimiter, the complete segments having been processed; and on
the concrete event split across two reads, exactly one chunk is
dispatched, carrying the reassembled fragment. -/
theorem sse_buffer_reassembly :
    (∀ (parse : String → Option SSEData) (st : DecoderState)
      (tr : List CallbackEvent) (r : String),
      (processRead parse st tr r).state.buffer
        = (splitBlank (st.buffer ++ r)).getLastD "") ∧
    decodeStream parseChunkHi ["data: \x7b\"ch", "unk\":\"hi\"\x7d\n\n"] .eof
      = (.normal, ⟨"", "hi", true⟩, [.chunk "hi", .complete "hi"]) ∧
    ((decodeStream parseChunkHi ["data: \x7b\"ch", "unk\":\"hi\"\x7d\n\n"]
        .eof).2.2.filter CallbackEvent.isChunk) = [.chunk "hi"] :=
  ⟨processRead_buffer, by decide, by decide⟩

/-! Dispatch equations for single events, and the claims about chunk,
done, error and malformed segments. -/

/-- Concatenation of a list of fragments, in order. -/
def concatAll : List String → String
  | [] => ""
  | c :: cs => c ++ concatAll cs

theorem processLine_eq_event {parse : String → Option SSEData}
    {line : String} {d : SSEData} (st : DecoderState) (tr : List CallbackEvent)
    (h1 : startsWithData line = true) (h2 : parse (sliceFrom6 line) = some d) :
    processLine parse st tr line = processEvent d st tr := by
  unfold processLine
  rw [if_pos h1, h2]

theorem processLine_skip {parse : String → Option SSEData} {line : String}
    (st : DecoderState) (tr : List CallbackEvent)
    (h1 : startsWithData line = true) (h2 : parse (sliceFrom6 line) = none) :
    processLine parse st tr line = .cont st tr := by
  unfold processLine
  rw [if_pos h1, h2]

theorem truthyStr_none : truthyStr none = false := rfl

theorem processEvent_chunk {d : SSEData} {c : String} (st : DecoderState)
    (tr : List CallbackEvent) (hch : d.chunk = some c) (hne : c ≠ "")
    (he : truthyStr d.error = false) (hd : truthyBool d.done = false) :
    processEvent d st tr =
      .cont { st with accumulated := st.accumulated ++ c } (tr ++ [.chunk c]) := by
  have hcht : truthyStr d.chunk = true := by simp [truthyStr, hch, hne]
  unfold processEvent
  simp only [he, Bool.false_eq_true, if_false, hcht, if_true, hd]
  simp [hch]

theorem processEvent_done {d : SSEData} (st : DecoderState)
    (tr : List CallbackEvent) (he : truthyStr d.error = false)
    (hch : d.chunk = none) (hd : truthyBool d.done = true)
    (hc : st.completed = false) :
    processEvent d st tr = .ret { st with completed := true }
      (tr ++ [.complete (donePayload d st.accumulated)]) := by
  unfold processEvent
  simp [he, hch, hd, hc, truthyStr_none]

theorem processEvent_err {d : SSEData} {m : String} (st : DecoderState)
    (tr : List CallbackEvent) (hem : d.error = some m) (hne : m ≠ "") :
    processEvent d st tr = .err m (completeOnce st tr).1 (completeOnce st tr).2 := by
  have ht : truthyStr d.error = true := by simp [truthyStr, hem, hne]
  unfold processEvent
  rw [if_pos ht, hem]
  simp

theorem runReads_ret {parse : String → Option SSEData} {ending : StreamEnd}
    {r : String} {rs : List String} {st st1 : DecoderState}
    {tr tr1 : List CallbackEvent}
    (h : processRead parse st tr r = .ret st1 tr1) :
    runReads parse ending (r :: rs) st tr = (.returned, st1, tr1) := by
  unfold runReads
  rw [h]

theorem runReads_err {parse : String → Option SSEData} {ending : StreamEnd}
    {r : String} {rs : List String} {m : String} {st st1 : DecoderState}
    {tr tr1 : List CallbackEvent}
    (h : processRead parse st tr r = .err m st1 tr1) :
    runReads parse ending (r :: rs) st tr = (.errored m, st1, tr1) := by
  unfold runReads
  rw [h]

/-- C3 (amended): events whose chunk field is present with a non-empty
fragment and which carry no truthy error or done field append the
fragment to the accumulator and dispatch the per-chunk callback; across
a run of such events the callbacks appear in stream order, with no
reordering and no duplication. -/
theorem sse_chunk_dispatch_order (parse : String → Option SSEData) :
    ∀ (lines : List String) (cs : List String) (st : DecoderState)
      (tr : List CallbackEvent),
    List.Forall₂ (fun l c => startsWithData l = true ∧
      ∃ d, parse (sliceFrom6 l) = some d ∧ d.chunk = some c ∧ c ≠ "" ∧
        truthyStr d.error = false ∧ truthyBool d.done = false) lines cs →
    processLines parse st tr lines =
      .cont { st with accumulated := st.accumulated ++ concatAll cs }
        (tr ++ cs.map CallbackEvent.chunk) := by
  intro lines cs st tr h
  induction h generalizing st tr with
  | nil => simp [processLines, concatAll]
  | cons h1 h2 ih =>
    obtain ⟨hstart, d, hparse, hch, hne, he, hd⟩ := h1
    unfold processLines
    rw [processLine_eq_event st tr hstart hparse,
      processEvent_chunk st tr hch hne he hd]
    show processLines _ _ _ _ = _
    rw [ih]
    simp [concatAll, String.append_assoc]

/-- Model of `JSON.parse` restricted to the payloads of the chunk-field
counterexample: a present but empty chunk field, and a chunk field
arriving together with an error field. -/
def parseChunkCases : String → Option SSEData := fun s =>
  if s = "\x7b\"chunk\":\"\"\x7d" then some ⟨some "", none, none, none⟩
  else if s = "\x7b\"chunk\":\"y\",\"error\":\"boom\"\x7d" then
    some ⟨some "y", some "boom", none, none⟩
  else none

/-- C3 (counterexample): two events whose chunk field is present, the
first with an empty fragment and the second together with an error
field, dispatch no chunk callback at all, against the claim that every
present chunk field is dispatched. -/
theorem sse_chunk_field_cex :
    parseChunkCases "\x7b\"chunk\":\"\"\x7d" = some ⟨some "", none, none, none⟩ ∧
    parseChunkCases "\x7b\"chunk\":\"y\",\"error\":\"boom\"\x7d"
      = some ⟨some "y", some "boom", none, none⟩ ∧
    decodeStream parseChunkCases
      ["data: \x7b\"chunk\":\"\"\x7d\n\ndata: \x7b\"chunk\":\"y\",\"error\":\"boom\"\x7d\n\n"]
      .eof
      = (.errored "boom", ⟨"", "", true⟩, [.complete ""]) ∧
    ((decodeStream parseChunkCases
      ["data: \x7b\"chunk\":\"\"\x7d\n\ndata: \x7b\"chunk\":\"y\",\"error\":\"boom\"\x7d\n\n"]
      .eof).2.2.filter CallbackEvent.isChunk) = [] :=
  ⟨rfl, rfl, by decide, by decide⟩

/-- C4 (amended): a parsed event whose done field is present with value
true (and no truthy error field, no chunk field) invokes the completion
callback once, with the full response field when it is present and
non-empty and with the accumulated text otherwise, and returns so that
no further segment or read is processed. -/
theorem sse_done_terminal :
    (∀ (parse : String → Option SSEData) (st : DecoderState)
      (tr : List CallbackEvent) (line : String) (rest : List String)
      (d : SSEData),
      startsWithData line = true → parse (sliceFrom6 line) = some d →
      truthyStr d.error = false → d.chunk = none → truthyBool d.done = true →
      st.completed = false →
      processLines parse st tr (line :: rest) = .ret { st with completed := true }
        (tr ++ [.complete (donePayload d st.accumulated)])) ∧
    (∀ (parse : String → Option SSEData) (ending : StreamEnd) (r : String)
      (rs : List String) (st st1 : DecoderState) (tr tr1 : List CallbackEvent),
      processRead parse st tr r = .ret st1 tr1 →
      runReads parse ending (r :: rs) st tr = (.returned, st1, tr1)) := by
  constructor
  · intro parse st tr line rest d h1 h2 he hch hd hc
    unfold processLines
    rw [processLine_eq_event st tr h1 h2, processEvent_done st tr he hch hd hc]
  · intro parse ending r rs st st1 tr tr1 h
    exact runReads_ret h

/-- Model of `JSON.parse` restricted to the payloads of the done-field
counterexample: a done field with value false, a plain chunk, and a done
event whose full response field is present but empty. -/
def parseDoneCases : String → Option SSEData := fun s =>
  if s = "\x7b\"done\":false\x7d" then some ⟨none, none, some false, none⟩
  else if s = "\x7b\"chunk\":\"a\"\x7d" then some ⟨some "a", none, none, none⟩
  else if s = "\x7b\"done\":true,\"full_response\":\"\"\x7d" then
    some ⟨none, none, some true, some ""⟩
  else none

/-- C4 (counterexample): an event whose done field is present with value
false does not stop the stream (a later chunk is still dispatched), and
a done event whose full response field is present but empty completes
with the accumulated text instead of the present field, against the
claim that any present done field is terminal and any present full
response field is used. -/
theorem sse_done_field_cex :
    parseDoneCases "\x7b\"done\":false\x7d" = some ⟨none, none, some false, none⟩ ∧
    parseDoneCases "\x7b\"chunk\":\"a\"\x7d" = some ⟨some "a", none, none, none⟩ ∧
    parseDoneCases "\x7b\"done\":true,\"full_response\":\"\"\x7d"
      = some ⟨none, none, some true, some ""⟩ ∧
    decodeStream parseDoneCases
      ["data: \x7b\"done\":false\x7d\n\ndata: \x7b\"chunk\":\"a\"\x7d\n\ndata: \x7b\"done\":true,\"full_response\":\"\"\x7d\n\n"]
      .eof
      = (.returned, ⟨"", "a", true⟩, [.chunk "a", .complete "a"]) :=
  ⟨rfl, rfl, rfl, by decide⟩

/-- C5 (amended): a parsed event whose error field is present and
non-empty is terminal: the completion callback is invoked (once) with
the text accumulated so far, the error is raised to the caller of
`sendMessage`, and no later segment or read dispatches anything. -/
theorem sse_error_terminal :
    (∀ (parse : String → Option SSEData) (st : DecoderState)
      (tr : List CallbackEvent) (line : String) (rest : List String)
      (d : SSEData) (m : String),
      startsWithData line = true → parse (sliceFrom6 line) = some d →
      d.error = some m → m ≠ "" → st.completed = false →
      processLines parse st tr (line :: rest) = .err m { st with completed := true }
        (tr ++ [.complete st.accumulated])) ∧
    (∀ (parse : String → Option SSEData) (ending : StreamEnd) (r : String)
      (rs : List String) (m : String) (st st1 : DecoderState)
      (tr tr1 : List CallbackEvent),
      processRead parse st tr r = .err m st1 tr1 →
      runReads parse ending (r :: rs) st tr = (.errored m, st1, tr1)) := by
  constructor
  · intro parse st tr line rest d m h1 h2 hem hne hc
    unfold processLines
    rw [processLine_eq_event st tr h1 h2, processEvent_err st tr hem hne,
      completeOnce_of_false hc]
  · intro parse ending r rs m st st1 tr tr1 h
    exact runReads_err h

/-- Model of `JSON.parse` restricted to the payloads of the error-field
counterexample: an error field that is present but empty, then a chunk. -/
def parseErrCases : String → Option SSEData := fun s =>
  if s = "\x7b\"error\":\"\"\x7d" then some ⟨none, some "", none, none⟩
  else if s = "\x7b\"chunk\":\"x\"\x7d" then some ⟨some "x", none, none, none⟩
  else none

/-- C5 (counterexample): an event whose error field is present but empty
is not treated as terminal: the following chunk is still dispatched and
no error is raised, against the claim that any present error field is
terminal. -/
theorem sse_error_field_cex :
    parseErrCases "\x7b\"error\":\"\"\x7d" = some ⟨none, some "", none, none⟩ ∧
    parseErrCases "\x7b\"chunk\":\"x\"\x7d" = some ⟨some "x", none, none, none⟩ ∧
    decodeStream parseErrCases
      ["data: \x7b\"error\":\"\"\x7d\n\ndata: \x7b\"chunk\":\"x\"\x7d\n\n"] .eof
      = (.normal, ⟨"", "x", true⟩, [.chunk "x", .complete "x"]) :=
  ⟨rfl, rfl, by decide⟩

/-- C6: a complete segment with the `data: ` marker whose payload fails
to parse as JSON is skipped and only that segment is lost: processing
continues with the remaining segments exactly as if the malformed one
had not been there. -/
theorem sse_malformed_skipped (parse : String → Option SSEData)
    (st : DecoderState) (tr : List CallbackEvent) (line : String)
    (rest : List String) (h1 : startsWithData line = true)
    (h2 : parse (sliceFrom6 line) = none) :
    processLines parse st tr (line :: rest) = processLines parse st tr rest := by
  conv_lhs => unfold processLines
  rw [processLine_skip st tr h1 h2]

/-- No message of the list is currently streaming. -/
def noStreaming (msgs : List Message) : Prop :=
  ∀ m ∈ msgs, m.isStreaming = false

/-- Number of messages currently streaming. -/
def streamingCount (msgs : List Message) : Nat :=
  (msgs.filter fun m => m.isStreaming).length

/-- Mid-turn well-formedness of the message list with respect to the
placeholder id `aid` of the running turn: at most one message carries
the id, only a message carrying the id may be streaming, and a message
carrying the id is an assistant message. -/
def aidOk (aid : Nat) (msgs : List Message) : Prop :=
  ((msgs.filter fun m => m.id == aid).length ≤ 1) ∧
  (∀ m ∈ msgs, m.isStreaming = true → m.id = aid) ∧
  (∀ m ∈ msgs, m.id = aid → m.role = Role.assistant)

/-- The claimed invariant of the view: at most one streaming message,
and every streaming message is an assistant message. -/
def streamInv (msgs : List Message) : Prop :=
  streamingCount msgs ≤ 1 ∧
  ∀ m ∈ msgs, m.isStreaming = true → m.role = Role.assistant

/-- Per-message effect of one callback of the turn with placeholder id
`aid`; `applyCallback` is the pointwise map of this function. -/
def fApply (aid : Nat) : CallbackEvent → Message → Message
  | .chunk c, m =>
    if m.id == aid then { m with content := m.content ++ c, isStreaming := true }
    else m
  | .complete full, m =>
    if m.id == aid then { m with content := full, isStreaming := false }
    else m

theorem applyCallback_eq_map (aid : Nat) (msgs : List Message)
    (e : CallbackEvent) : applyCallback aid msgs e = msgs.map (fApply aid e) := by
  cases e <;> rfl

theorem fApply_id (aid : Nat) (e : CallbackEvent) (m : Message) :
    (fApply aid e m).id = m.id := by
  cases e <;> unfold fApply <;> by_cases h : (m.id == aid) = true <;> simp [h]

theorem fApply_role (aid : Nat) (e : CallbackEvent) (m : Message) :
    (fApply aid e m).role = m.role := by
  cases e <;> unfold fApply <;> by_cases h : (m.id == aid) = true <;> simp [h]

theorem fApply_of_ne {aid : Nat} {m : Message} (e : CallbackEvent)
    (h : (m.id == aid) = false) : fApply aid e m = m := by
  cases e <;> simp [fApply, h]

theorem fApply_complete_streaming {aid : Nat} {m : Message} (x : String)
    (h : (m.id == aid) = true) :
    (fApply aid (.complete x) m).isStreaming = false := by
  simp [fApply, h]

theorem filter_id_map_length (aid : Nat) (e : CallbackEvent) :
    ∀ msgs : List Message,
    ((msgs.map (fApply aid e)).filter fun m => m.id == aid).length
      = ((msgs.filter fun m => m.id == aid)).length := by
  intro msgs
  induction msgs with
  | nil => rfl
  | cons m l ih =>
    simp only [List.map_cons, List.filter_cons, fApply_id]
    cases h : (m.id == aid) <;> simp [h, ih]

/-- One callback of the turn preserves the mid-turn well-formedness. -/
theorem aidOk_apply {aid : Nat} {msgs : List Message} (e : CallbackEvent)
    (h : aidOk aid msgs) : aidOk aid (applyCallback aid msgs e) := by
  obtain ⟨h1, h2, h3⟩ := h
  rw [applyCallback_eq_map]
  refine ⟨?_, ?_, ?_⟩
  · rw [filter_id_map_length]
    exact h1
  · intro m' hm' hs
    obtain ⟨m, hm, rfl⟩ := List.mem_map.mp hm'
    rw [fApply_id]
    by_cases hid : (m.id == aid) = true
    · exact beq_iff_eq.mp hid
    · rw [fApply_of_ne e (by simpa using hid)] at hs
      exact h2 m hm hs
  · intro m' hm' hid
    obtain ⟨m, hm, rfl⟩ := List.mem_map.mp hm'
    rw [fApply_id] at hid
    rw [fApply_role]
    exact h3 m hm hid

/-- The whole callback trace of a turn preserves the mid-turn
well-formedness. -/
theorem aidOk_foldl {aid : Nat} :
    ∀ (tr : List CallbackEvent) (msgs : List Message), aidOk aid msgs →
    aidOk aid (tr.foldl (applyCallback aid) msgs) := by
  intro tr
  induction tr with
  | nil => intro msgs h; exact h
  | cons e es ih =>
    intro msgs h
    exact ih (applyCallback aid msgs e) (aidOk_apply e h)

/-- After the completion callback, no message is streaming, provided
only messages carrying the placeholder id could be streaming before. -/
theorem noStreaming_apply_complete {aid : Nat} {msgs : List Message}
    (x : String) (h2 : ∀ m ∈ msgs, m.isStreaming = true → m.id = aid) :
    noStreaming (applyCallback aid msgs (.complete x)) := by
  rw [applyCallback_eq_map]
  intro m' hm'
  obtain ⟨m, hm, rfl⟩ := List.mem_map.mp hm'
  by_cases hid : (m.id == aid) = true
  · exact fApply_complete_streaming x hid
  · rw [fApply_of_ne _ (by simpa using hid)]
    cases hs : m.isStreaming with
    | false => rfl
    | true => exact absurd (h2 m hm hs) (by simpa using hid)

/-- Removing the placeholder removes every streaming message, provided
only messages carrying the placeholder id could be streaming. -/
theorem noStreaming_filter_aid {aid : Nat} {msgs : List Message}
    (h2 : ∀ m ∈ msgs, m.isStreaming = true → m.id = aid) :
    noStreaming (msgs.filter fun m => m.id != aid) := by
  intro m hm
  obtain ⟨hmem, hne⟩ := List.mem_filter.mp hm
  cases hs : m.isStreaming with
  | false => rfl
  | true => exact absurd (h2 m hmem hs) (by simpa using hne)

theorem length_filter_le_of_imp {α : Type} (p q : α → Bool) :
    ∀ l : List α, (∀ a ∈ l, p a = true → q a = true) →
    (l.filter p).length ≤ (l.filter q).length := by
  intro l
  induction l with
  | nil => intro _; simp
  | cons a l ih =>
    intro h
    have ha := h a (List.mem_cons_self a l)
    have hl := ih fun b hb hp => h b (List.mem_cons_of_mem a hb) hp
    cases hp : p a with
    | true =>
      have hq := ha hp
      simp only [List.filter_cons, hp, hq, if_true]
      simpa using hl
    | false =>
      simp only [List.filter_cons, hp, Bool.false_eq_true, if_false]
      cases hq : q a with
      | true =>
        simp only [if_true]
        exact Nat.le_succ_of_le hl
      | false => simpa using hl

theorem streamInv_of_aidOk {aid : Nat} {msgs : List Message}
    (h : aidOk aid msgs) : streamInv msgs := by
  obtain ⟨h1, h2, h3⟩ := h
  constructor
  · refine le_trans (length_filter_le_of_imp _ _ msgs ?_) h1
    intro m hm hs
    simpa using h2 m hm hs
  · intro m hm hs
    exact h3 m hm (h2 m hm hs)

theorem streamInv_of_noStreaming {msgs : List Message}
    (h : noStreaming msgs) : streamInv msgs := by
  constructor
  · have hnil : (msgs.filter fun m => m.isStreaming) = [] := by
      rw [List.filter_eq_nil_iff]
      intro m hm
      simp [h m hm]
    simp [streamingCount, hnil]
  · intro m hm hs
    rw [h m hm] at hs
    cases hs

/-- The trace of a `sendMessage` call on an ok response is the trace of
its decoder run, whether or not the run ends in an error. -/
theorem sendMessageRun_ok_trace (parse : String → Option SSEData)
    (reads : List String) (ending : StreamEnd) :
    (sendMessageRun parse (.ok reads ending)).1
      = (decodeStream parse reads ending).2.2 := by
  unfold sendMessageRun
  cases h : (decodeStream parse reads ending).1 <;> simp [h]

/-- A `sendMessage` call that does not throw delivered its callbacks
with the completion last. -/
theorem sendMessageRun_none (parse : String → Option SSEData)
    (fetch : FetchResult) (h : (sendMessageRun parse fetch).2 = none) :
    ∃ pre x, (sendMessageRun parse fetch).1 = pre ++ [.complete x] := by
  cases fetch with
  | netFail m => exact absurd h (by simp [sendMessageRun])
  | httpError d => exact absurd h (by simp [sendMessageRun])
  | ok reads ending =>
    obtain ⟨pre, x, hpre, _⟩ := decodeStream_trace parse reads ending
    exact ⟨pre, x, by rw [sendMessageRun_ok_trace]; exact hpre⟩

/-- The start-of-turn message list is mid-turn well formed when the view
was quiescent and the clock is fresh. -/
theorem msgs2_aidOk (st : ChatState) (text : String) (now : Nat)
    (hq : noStreaming st.messages)
    (hfresh : ∀ m ∈ st.messages, m.id ≠ now + 1) :
    aidOk (now + 1)
      (st.messages ++ [mkUserMessage now text] ++ [mkAssistantMessage now]) := by
  have h01 : (now == now + 1) = false := by simp
  have h11 : (now + 1 == now + 1) = true := by simp
  refine ⟨?_, ?_, ?_⟩
  · have hst : (st.messages.filter fun m => m.id == now + 1) = [] := by
      rw [List.filter_eq_nil_iff]
      intro m hm
      simp [hfresh m hm]
    simp [List.filter_append, hst, mkUserMessage, mkAssistantMessage, h01, h11]
  · intro m hm hs
    rcases List.mem_append.mp hm with hm1 | hm1
    · rcases List.mem_append.mp hm1 with hm2 | hm2
      · exact absurd hs (by simp [hq m hm2])
      · rw [List.mem_singleton] at hm2
        subst hm2
        simp [mkUserMessage] at hs
    · rw [List.mem_singleton] at hm1
      subst hm1
      rfl
  · intro m hm hid
    rcases List.mem_append.mp hm with hm1 | hm1
    · rcases List.mem_append.mp hm1 with hm2 | hm2
      · exact absurd hid (hfresh m hm2)
      · rw [List.mem_singleton] at hm2
        subst hm2
        exact absurd hid (by simp [mkUserMessage])
    · rw [List.mem_singleton] at hm1
      subst hm1
      rfl

/-- A whole turn from a quiescent view with a fresh clock leaves the
view quiescent again: the placeholder was finalized (success) or
removed (failure). -/
theorem turn_noStreaming (parse : String → Option SSEData) (st : ChatState)
    (text : String) (now : Nat) (fetch : FetchResult)
    (hq : noStreaming st.messages)
    (hfresh : ∀ m ∈ st.messages, m.id ≠ now + 1) :
    noStreaming ((handleSendMessage parse st text now fetch).1.messages) := by
  unfold handleSendMessage
  by_cases hg : (jsTrim text == "" || st.isLoading) = true
  · rw [if_pos hg]
    exact hq
  · rw [if_neg hg]
    have hok := msgs2_aidOk st text now hq hfresh
    rcases hrun : sendMessageRun parse fetch with ⟨tr, thrown⟩
    cases thrown with
    | some m =>
      exact noStreaming_filter_aid (aidOk_foldl tr _ hok).2.1
    | none =>
      obtain ⟨pre, x, hpre⟩ :=
        sendMessageRun_none parse fetch (by rw [hrun])
      rw [hrun] at hpre
      simp only at hpre
      subst hpre
      show noStreaming ((pre ++ [CallbackEvent.complete x]).foldl
        (applyCallback (now + 1))
        (st.messages ++ [mkUserMessage now text] ++ [mkAssistantMessage now]))
      rw [List.foldl_append, List.foldl_cons, List.foldl_nil]
      exact noStreaming_apply_complete x (aidOk_foldl pre _ hok).2.1

/-- Every quiescent reachable state of the view has no streaming
message. -/
theorem reachable_noStreaming {st : ChatState} (h : Reachable st) :
    noStreaming st.messages := by
  induction h with
  | init => intro m hm; cases hm
  | send parse st text now fetch _ hfresh ih =>
    exact turn_noStreaming parse st text now fetch ih
      fun m hm => (hfresh m hm).2
  | clearOk st _ _ => intro m hm; cases hm
  | clearFail st m _ ih => exact ih

/-- Every element of a scan satisfies an invariant preserved by the
folded function. -/
theorem scanl_all {α β : Type} {f : β → α → β} {P : β → Prop}
    (hP : ∀ b a, P b → P (f b a)) :
    ∀ (l : List α) (b : β), P b → ∀ x ∈ List.scanl f b l, P x := by
  intro l
  induction l with
  | nil =>
    intro b hb x hx
    simp only [List.scanl, List.mem_singleton] at hx
    exact hx ▸ hb
  | cons a l ih =>
    intro b hb x hx
    simp only [List.scanl, List.mem_cons] at hx
    cases hx with
    | inl h => exact h ▸ hb
    | inr h => exact ih (f b a) (hP b a hb) x h

/-- Removing every message carrying the placeholder id undoes the whole
callback trace of the turn: the callbacks only ever rewrite messages
carrying that id. -/
theorem filter_ne_applyCallback (aid : Nat) (msgs : List Message)
    (e : CallbackEvent) :
    ((applyCallback aid msgs e).filter fun m => m.id != aid)
      = msgs.filter fun m => m.id != aid := by
  rw [applyCallback_eq_map]
  induction msgs with
  | nil => rfl
  | cons m l ih =>
    simp only [List.map_cons, List.filter_cons, fApply_id]
    cases h : (m.id != aid) with
    | true =>
      rw [fApply_of_ne e (by simpa using h)]
      simp [h, ih]
    | false => simp [h, ih]

theorem filter_ne_foldl (aid : Nat) :
    ∀ (tr : List CallbackEvent) (msgs : List Message),
    ((tr.foldl (applyCallback aid) msgs).filter fun m => m.id != aid)
      = msgs.filter fun m => m.id != aid := by
  intro tr
  induction tr with
  | nil => intro msgs; rfl
  | cons e es ih =>
    intro msgs
    rw [List.foldl_cons, ih, filter_ne_applyCallback]

/-- C7: when `sendMessage` throws during a turn that passed the input
guard, the view transitions back to idle: the loading flag is cleared so
a new turn may begin, an error notice is surfaced, and no message
carrying the placeholder id remains visible. -/
theorem view_error_resets (parse : String → Option SSEData) (st : ChatState)
    (text : String) (now : Nat) (fetch : FetchResult) (m : String)
    (hload : st.isLoading = false) (htext : jsTrim text ≠ "")
    (hthrow : (sendMessageRun parse fetch).2 = some m) :
    (handleSendMessage parse st text now fetch).1.isLoading = false ∧
    (handleSendMessage parse st text now fetch).1.error
      = some (orDefault m "Failed to send message") ∧
    ∀ msg ∈ (handleSendMessage parse st text now fetch).1.messages,
      msg.id ≠ now + 1 := by
  have hg : ¬((jsTrim text == "" || st.isLoading) = true) := by
    simp [hload, htext]
  unfold handleSendMessage
  rw [if_neg hg]
  rcases hrun : sendMessageRun parse fetch with ⟨tr, thrown⟩
  rw [hrun] at hthrow
  simp only at hthrow
  subst hthrow
  refine ⟨rfl, rfl, ?_⟩
  intro msg hmsg
  have := (List.mem_filter.mp hmsg).2
  simpa using this

/-- C8: the client is single flight: while a turn is in flight, the
view handler returns with the state untouched and no request issued,
and the input component does not hand the text over at all. -/
theorem single_flight (parse : String → Option SSEData) (st : ChatState)
    (text : String) (now : Nat) (fetch : FetchResult) (input : String)
    (h : st.isLoading = true) :
    handleSendMessage parse st text now fetch = (st, false) ∧
    handleSubmit input true = none := by
  constructor
  · unfold handleSendMessage
    rw [if_pos (by simp [h])]
  · unfold handleSubmit
    simp

/-- C9: every quiescent reachable state of the view satisfies the
streaming invariant, and along one whole turn from such a state (under
the fresh clock the id scheme assumes) every intermediate value of the
message list has at most one streaming message, and any streaming
message is an assistant message. -/
theorem view_streaming_invariant :
    (∀ st : ChatState, Reachable st → streamInv st.messages) ∧
    (∀ (parse : String → Option SSEData) (st : ChatState) (text : String)
      (now : Nat) (fetch : FetchResult), Reachable st →
      (∀ m ∈ st.messages, m.id ≠ now + 1) →
      ∀ msgs ∈ turnStates parse st text now fetch, streamInv msgs) := by
  constructor
  · intro st h
    exact streamInv_of_noStreaming (reachable_noStreaming h)
  · intro parse st text now fetch hr hfresh msgs hmem
    have hq := reachable_noStreaming hr
    unfold turnStates at hmem
    by_cases hg : (jsTrim text == "" || st.isLoading) = true
    · rw [if_pos hg] at hmem
      rw [List.mem_singleton] at hmem
      subst hmem
      exact streamInv_of_noStreaming hq
    · rw [if_neg hg] at hmem
      have hok := msgs2_aidOk st text now hq hfresh
      rcases List.mem_append.mp hmem with hm1 | hm1
      · rcases List.mem_append.mp hm1 with hm2 | hm2
        · simp only [List.mem_cons, List.mem_singleton] at hm2
          rcases hm2 with hm3 | hm3 | hm3
          · subst hm3
            exact streamInv_of_noStreaming hq
          · subst hm3
            refine streamInv_of_noStreaming ?_
            intro m hm
            rcases List.mem_append.mp hm with h | h
            · exact hq m h
            · rw [List.mem_singleton] at h
              subst h
              rfl
          · cases hm3
        · exact streamInv_of_aidOk
            (scanl_all (fun b a hb => aidOk_apply a hb) _ _ hok msgs hm2)
      · rw [List.mem_singleton] at hm1
        subst hm1
        exact streamInv_of_noStreaming
          (turn_noStreaming parse st text now fetch hq hfresh)

/-- C10: on the error path of a turn that passed the guard, with the
placeholder id fresh for the current list (as the clock scheme
guarantees), exactly the assistant placeholder is removed: the final
list is the old list, unchanged and in order, followed by the optimistic
user message of the turn. -/
theorem view_error_frame (parse : String → Option SSEData) (st : ChatState)
    (text : String) (now : Nat) (fetch : FetchResult) (m : String)
    (hload : st.isLoading = false) (htext : jsTrim text ≠ "")
    (hfresh : ∀ msg ∈ st.messages, msg.id ≠ now + 1)
    (hthrow : (sendMessageRun parse fetch).2 = some m) :
    (handleSendMessage parse st text now fetch).1.messages
      = st.messages ++ [mkUserMessage now text] := by
  have hg : ¬((jsTrim text == "" || st.isLoading) = true) := by
    simp [hload, htext]
  unfold handleSendMessage
  rw [if_neg hg]
  rcases hrun : sendMessageRun parse fetch with ⟨tr, thrown⟩
  rw [hrun] at hthrow
  simp only at hthrow
  subst hthrow
  show ((tr.foldl (applyCallback (now + 1))
      (st.messages ++ [mkUserMessage now text] ++ [mkAssistantMessage now])).filter
        fun msg => msg.id != now + 1)
    = st.messages ++ [mkUserMessage now text]
  rw [filter_ne_foldl]
  have hst : (st.messages.filter fun msg => msg.id != now + 1) = st.messages :=
    List.filter_eq_self.mpr fun m hm => by simpa using hfresh m hm
  simp [List.filter_append, hst, mkUserMessage, mkAssistantMessage]

/-! Concrete instantiations of the theorems with hypotheses. -/

/-- Witness: the chunk order theorem at a concrete one-chunk stream. -/
theorem sse_chunk_dispatch_order_witness :
    processLines parseChunkHi ⟨"", "", false⟩ [] ["data: \x7b\"chunk\":\"hi\"\x7d"]
      = .cont ⟨"", "hi", false⟩ [.chunk "hi"] := by
  have h := sse_chunk_dispatch_order parseChunkHi
    ["data: \x7b\"chunk\":\"hi\"\x7d"] ["hi"] ⟨"", "", false⟩ []
    (List.Forall₂.cons
      ⟨by decide, ⟨some "hi", none, none, none⟩, by decide, rfl, by decide, rfl, rfl⟩
      List.Forall₂.nil)
  rw [h]
  decide

/-- Witness: the done theorem at a concrete done event whose full
response field is empty, and the stop of the read loop after it. -/
theorem sse_done_terminal_witness :
    processLines parseDoneCases ⟨"", "a", false⟩ []
      ["data: \x7b\"done\":true,\"full_response\":\"\"\x7d",
        "data: \x7b\"chunk\":\"a\"\x7d"]
      = .ret ⟨"", "a", true⟩ [.complete "a"] ∧
    runReads parseDoneCases .eof
      ["data: \x7b\"done\":true,\"full_response\":\"\"\x7d\n\n",
        "data: \x7b\"chunk\":\"a\"\x7d\n\n"]
      ⟨"", "a", false⟩ []
      = (.returned, ⟨"", "a", true⟩, [.complete "a"]) := by
  constructor
  · have h := sse_done_terminal.1 parseDoneCases ⟨"", "a", false⟩ []
      "data: \x7b\"done\":true,\"full_response\":\"\"\x7d"
      ["data: \x7b\"chunk\":\"a\"\x7d"]
      ⟨none, none, some true, some ""⟩ (by decide) (by decide) rfl rfl rfl rfl
    rw [h]
    decide
  · exact sse_done_terminal.2 parseDoneCases .eof
      "data: \x7b\"done\":true,\"full_response\":\"\"\x7d\n\n"
      ["data: \x7b\"chunk\":\"a\"\x7d\n\n"]
      ⟨"", "a", false⟩ ⟨"", "a", true⟩ [] [.complete "a"] (by decide)

/-- Witness: the error theorem at a concrete event with a non-empty
error field, and the stop of the read loop after it. -/
theorem sse_error_terminal_witness :
    processLines parseChunkCases ⟨"", "", false⟩ []
      ["data: \x7b\"chunk\":\"y\",\"error\":\"boom\"\x7d", "data: junk"]
      = .err "boom" ⟨"", "", true⟩ [.complete ""] ∧
    runReads parseChunkCases .eof
      ["data: \x7b\"chunk\":\"y\",\"error\":\"boom\"\x7d\n\n", "later"]
      ⟨"", "", false⟩ []
      = (.errored "boom", ⟨"", "", true⟩, [.complete ""]) := by
  constructor
  · have h := sse_error_terminal.1 parseChunkCases ⟨"", "", false⟩ []
      "data: \x7b\"chunk\":\"y\",\"error\":\"boom\"\x7d" ["data: junk"]
      ⟨some "y", some "boom", none, none⟩ "boom" (by decide) (by decide) rfl
      (by decide) rfl
    rw [h]
    decide
  · exact sse_error_terminal.2 parseChunkCases .eof
      "data: \x7b\"chunk\":\"y\",\"error\":\"boom\"\x7d\n\n" ["later"] "boom"
      ⟨"", "", false⟩ ⟨"", "", true⟩ [] [.complete ""] (by decide)

/-- Witness: the malformed-segment theorem at a concrete stream where a
bad segment precedes a good one. -/
theorem sse_malformed_skipped_witness :
    processLines parseChunkHi ⟨"", "", false⟩ []
      ["data: notjson", "data: \x7b\"chunk\":\"hi\"\x7d"]
      = .cont ⟨"", "hi", false⟩ [.chunk "hi"] := by
  rw [sse_malformed_skipped parseChunkHi ⟨"", "", false⟩ [] "data: notjson"
    ["data: \x7b\"chunk\":\"hi\"\x7d"] (by decide) (by decide)]
  decide

/-- Witness: the error-reset theorem at a concrete failing fetch. -/
theorem view_error_resets_witness :
    (handleSendMessage parseChunkHi ⟨[], false, none⟩ "hi" 0
      (.netFail "down")).1.isLoading = false ∧
    (handleSendMessage parseChunkHi ⟨[], false, none⟩ "hi" 0
      (.netFail "down")).1.error
      = some (orDefault "down" "Failed to send message") ∧
    ∀ msg ∈ (handleSendMessage parseChunkHi ⟨[], false, none⟩ "hi" 0
      (.netFail "down")).1.messages, msg.id ≠ 0 + 1 :=
  view_error_resets parseChunkHi ⟨[], false, none⟩ "hi" 0 (.netFail "down")
    "down" rfl (by decide) rfl

/-- Witness: the single-flight theorem at a concrete loading state. -/
theorem single_flight_witness :
    handleSendMessage parseChunkHi ⟨[], true, none⟩ "hi" 0 (.netFail "x")
      = (⟨[], true, none⟩, false) ∧
    handleSubmit "hi" true = none :=
  single_flight parseChunkHi ⟨[], true, none⟩ "hi" 0 (.netFail "x") "hi" rfl

/-- Witness: the streaming invariant at the initial state and at a
concrete intermediate list of a turn from it. -/
theorem view_streaming_invariant_witness :
    streamInv ([] : List Message) ∧
    streamInv [⟨0, .user, "hi", false⟩] := by
  constructor
  · exact view_streaming_invariant.1 ⟨[], false, none⟩ Reachable.init
  · exact view_streaming_invariant.2 parseChunkHi ⟨[], false, none⟩ "hi" 0
      (.ok ["data: \x7b\"chunk\":\"hi\"\x7d\n\n"] .eof) Reachable.init
      (by simp) [⟨0, .user, "hi", false⟩] (by decide)

/-- Witness: the error-frame theorem at a concrete failing fetch. -/
theorem view_error_frame_witness :
    (handleSendMessage parseChunkHi ⟨[], false, none⟩ "hi" 0
      (.netFail "down")).1.messages = [] ++ [mkUserMessage 0 "hi"] :=
  view_error_frame parseChunkHi ⟨[], false, none⟩ "hi" 0 (.netFail "down")
    "down" rfl (by decide) (by simp) rfl

end Chat
